import Mathlib

/-!
Verification of the `data_transfer` module: a shallow embedding of the
Python source (`ensure_list`, `remove_key`, `gen_dict_extract`,
`set_dict_entry`, `get_dict_entry`, `dict_transfer`) as pure Lean
functions, together with theorems settling the specification's claims.

Python values are modelled by the inductive type `PyVal`: dictionaries
are association lists with string keys (Python dictionaries in this
module are always string-keyed), lists and tuples are Lean lists, and an
object carrying a `value` attribute (the GUI widget wrapper unwrapped by
the code via `hasattr(value, 'value')`) is the `wrapped` constructor.
In-place mutation is modelled by explicit state passing: a function that
mutates an argument returns the argument's new value.  Exceptions are
modelled with `Except`.
-/

inductive PyVal where
  | none
  | bool (b : Bool)
  | int (n : Int)
  | str (s : String)
  | dict (entries : List (String × PyVal))
  | list (xs : List PyVal)
  | tuple (xs : List PyVal)
  | wrapped (v : PyVal)

/-- Python exceptions raised by the module.  `nameError` and the
diagnostic record carry the offending key list itself, standing for the
Python message that interpolates it. -/
inductive PyErr where
  | typeError
  | indexError
  | keyError (k : String)
  | nameError (path : List PyVal)

/-- The `mode` argument of `set_dict_entry`. -/
inductive SetMode where
  | moderate
  | strict
deriving DecidableEq

/-- First-occurrence lookup in a (string-keyed) Python dictionary,
modelled as an association list. -/
def dictGet? (es : List (String × PyVal)) (k : String) : Option PyVal :=
  match es with
  | [] => Option.none
  | (k', v) :: rest => if k' = k then some v else dictGet? rest k

/-- First-occurrence update `d[k] = v` on a dictionary whose key `k` is
already present; leaves the dictionary unchanged when `k` is absent
(the code only assigns after a membership check). -/
def dictSet (es : List (String × PyVal)) (k : String) (v : PyVal) :
    List (String × PyVal) :=
  match es with
  | [] => []
  | (k', v') :: rest =>
      if k' = k then (k', v) :: rest else (k', v') :: dictSet rest k v

/-- `k in d` for a dictionary. -/
def keyMem (k : String) (es : List (String × PyVal)) : Bool :=
  match es with
  | [] => false
  | (k', _) :: rest => k' = k || keyMem k rest

/-- Python list indexing `xs[j]` with negative-index wrap-around;
`Option.none` is an `IndexError`. -/
def pyIndex (xs : List PyVal) (j : Int) : Option PyVal :=
  let i : Int := if j < 0 then j + xs.length else j
  if 0 ≤ i then xs[i.toNat]? else Option.none

/-- The `hasattr(value, 'value')` unwrapping step used before every
assignment of a transferred value. -/
def unwrap_value (v : PyVal) : PyVal :=
  match v with
  | .wrapped w => w
  | _ => v

/-- `isinstance(variable, (list, tuple, np.ndarray))` — the iterable
test of `ensure_list` (numpy arrays are not part of the model). -/
def is_iterable (v : PyVal) : Bool :=
  match v with
  | .list _ => true
  | .tuple _ => true
  | _ => false

/-- `ensure_list(variable, length)`: return the argument unchanged when
it is already a list or tuple, otherwise a fresh list of `length` copies
of it (`[variable for i in range(length)]`). -/
def ensure_list (v : PyVal) (length : Nat) : PyVal :=
  if is_iterable v then v
  else .list (List.replicate length v)

/-- Elements of a sequence produced by `ensure_list` (its result is
always a list or a tuple, over which the caller iterates / indexes). -/
def seq_elems (v : PyVal) : List PyVal :=
  match v with
  | .list xs => xs
  | .tuple xs => xs
  | x => [x]

mutual

/-- `copy.deepcopy` on the modelled values: rebuilds the whole structure
with fresh containers. -/
def copy_deepcopy : PyVal → PyVal
  | .none => .none
  | .bool b => .bool b
  | .int n => .int n
  | .str s => .str s
  | .dict es => .dict (deepcopy_entries es)
  | .list xs => .list (deepcopy_seq xs)
  | .tuple xs => .tuple (deepcopy_seq xs)
  | .wrapped v => .wrapped (copy_deepcopy v)

def deepcopy_entries : List (String × PyVal) → List (String × PyVal)
  | [] => []
  | (k, v) :: rest => (k, copy_deepcopy v) :: deepcopy_entries rest

def deepcopy_seq : List PyVal → List PyVal
  | [] => []
  | x :: rest => copy_deepcopy x :: deepcopy_seq rest

end

mutual

/-- `remove_key(key, var)` (state-passing form of the in-place deletion):
delete every dictionary entry named `key` at any depth, recursing into
dictionary values and into sequence elements. -/
def remove_key (key : String) : PyVal → PyVal
  | .dict es => .dict (remove_key_entries key es)
  | .list xs => .list (remove_key_seq key xs)
  | .tuple xs => .tuple (remove_key_seq key xs)
  | v => v

def remove_key_entries (key : String) : List (String × PyVal) →
    List (String × PyVal)
  | [] => []
  | (k, v) :: rest =>
      if k = key then remove_key_entries key rest
      else (k, remove_key key v) :: remove_key_entries key rest

def remove_key_seq (key : String) : List PyVal → List PyVal
  | [] => []
  | x :: rest => remove_key key x :: remove_key_seq key rest

end

mutual

/-- Does any dictionary at any depth inside the nested structure contain
`key`?  (Descends into dictionary values and sequence elements; a
wrapper object is a scalar of the data model and is not descended.) -/
def contains_key_anywhere (key : String) : PyVal → Bool
  | .dict es => keyMem key es || cka_entries key es
  | .list xs => cka_seq key xs
  | .tuple xs => cka_seq key xs
  | _ => false

def cka_entries (key : String) : List (String × PyVal) → Bool
  | [] => false
  | (_, v) :: rest => contains_key_anywhere key v || cka_entries key rest

def cka_seq (key : String) : List PyVal → Bool
  | [] => false
  | x :: rest => contains_key_anywhere key x || cka_seq key rest

end

mutual

/-- `gen_dict_extract(key, var)`, eagerly materialised in yield order:
iterating a dictionary's items, an item whose key matches yields the
whole dictionary, and the item's value is recursed into when it is a
dictionary or a list (not a tuple); lists and tuples at the top level
are traversed elementwise. -/
def gen_dict_extract (key : String) : PyVal → List PyVal
  | .dict es => extract_entries key es es
  | .list xs => extract_top_seq key xs
  | .tuple xs => extract_top_seq key xs
  | _ => []

def extract_entries (key : String) (whole : List (String × PyVal)) :
    List (String × PyVal) → List PyVal
  | [] => []
  | (k, v) :: rest =>
      (if k = key then [PyVal.dict whole] else []) ++
      extract_value key v ++ extract_entries key whole rest

def extract_value (key : String) : PyVal → List PyVal
  | .dict es => extract_entries key es es
  | .list xs => extract_top_seq key xs
  | _ => []

def extract_top_seq (key : String) : List PyVal → List PyVal
  | [] => []
  | d :: rest => gen_dict_extract key d ++ extract_top_seq key rest

end

/-- The descend-then-assign body of `set_dict_entry`: walk through all
but the last key (`sub_dict = sub_dict[key_list[i]]`), then check the
final key.  If present, assign the unwrapped value; if absent, raise
`NameError` in strict mode, or print a diagnostic naming the full key
list and leave the tree alone in moderate mode.  `full` is the whole
key list (the Python code interpolates it into its messages); the
returned list holds the paths named by `print` calls. -/
def set_go (full : List PyVal) (value : PyVal) (mode : SetMode) :
    List PyVal → PyVal → Except PyErr (PyVal × List (List PyVal))
  | [], _ => .error .indexError
  | [k], sub =>
      match sub, k with
      | .dict es, .str s =>
          if keyMem s es then
            .ok (.dict (dictSet es s (unwrap_value value)), [])
          else
            match mode with
            | .strict => .error (.nameError full)
            | .moderate => .ok (.dict es, [full])
      | _, _ => .error .typeError
  | k :: rest, sub =>
      match sub, k with
      | .dict es, .str s =>
          match dictGet? es s with
          | some child =>
              match set_go full value mode rest child with
              | .ok (child2, prints) => .ok (.dict (dictSet es s child2), prints)
              | .error e => .error e
          | Option.none => .error (.keyError s)
      | _, _ => .error .typeError

/-- `set_dict_entry(value, key_list, target_dict, mode)`: type-check the
root, then run the descend-and-assign body. -/
def set_dict_entry (value : PyVal) (key_list : List PyVal)
    (target_dict : PyVal) (mode : SetMode) :
    Except PyErr (PyVal × List (List PyVal)) :=
  match target_dict with
  | .dict _ => set_go key_list value mode key_list target_dict
  | _ => .error .typeError

/-- The descend-then-read body of `get_dict_entry`. -/
def get_go : List PyVal → PyVal → Except PyErr PyVal
  | [], _ => .error .indexError
  | [k], sub =>
      match sub, k with
      | .dict es, .str s =>
          match dictGet? es s with
          | some v => .ok v
          | Option.none => .error (.keyError s)
      | _, _ => .error .typeError
  | k :: rest, sub =>
      match sub, k with
      | .dict es, .str s =>
          match dictGet? es s with
          | some child => get_go rest child
          | Option.none => .error (.keyError s)
      | _, _ => .error .typeError

/-- `get_dict_entry(key_list, source_dict)`. -/
def get_dict_entry (key_list : List PyVal) (source_dict : PyVal) :
    Except PyErr PyVal :=
  match source_dict with
  | .dict _ => get_go key_list source_dict
  | _ => .error .typeError

/-- Successful resolution of all but the last key of a path: returns the
entries of the parent sub-dictionary together with the final key (which
must be a string), without looking the final key up. -/
def resolves_to : List PyVal → PyVal → Option (List (String × PyVal) × String)
  | [k], tree =>
      match tree, k with
      | .dict es, .str s => some (es, s)
      | _, _ => Option.none
  | k :: rest, tree =>
      match tree, k with
      | .dict es, .str s =>
          match dictGet? es s with
          | some child => resolves_to rest child
          | Option.none => Option.none
      | _, _ => Option.none
  | [], _ => Option.none

/-- The fan-out value list of `dict_transfer` (lines 236-246): for each
index `j` of the fan-out marker, take `gui_values[j]`, falling back to
`gui_values[-1]` on an `IndexError`, and unwrap a `.value` attribute. -/
def fanout_value_list (gui_values : List PyVal) :
    List PyVal → Except PyErr (List PyVal)
  | [] => .ok []
  | j :: rest =>
      match j with
      | .int n =>
          match pyIndex gui_values n with
          | some v =>
              match fanout_value_list gui_values rest with
              | .ok vs => .ok (unwrap_value v :: vs)
              | .error e => .error e
          | Option.none =>
              match pyIndex gui_values (-1) with
              | some v =>
                  match fanout_value_list gui_values rest with
                  | .ok vs => .ok (unwrap_value v :: vs)
                  | .error e => .error e
              | Option.none => .error .indexError
      | _ => .error .typeError

/-- The orchestration state of one `dict_transfer` call: the deep copy
being mutated, the `name_lists` record, and a ghost trace of the paths
at which a `set_dict_entry` call actually performed an assignment (the
final key was found).  The trace is not part of the Python function's
return value; it makes "was written" a definable event. -/
structure TransferState where
  target : PyVal
  name_lists : List (List PyVal)
  writes : List (List PyVal)

/-- Run one `set_dict_entry` call against the state's target copy.  An
assignment happened exactly when no diagnostic was printed, so the ghost
`writes` trace extends by the path in that case. -/
def apply_set (value : PyVal) (path : List PyVal) (mode : SetMode)
    (st : TransferState) : Except PyErr TransferState :=
  match set_dict_entry value path st.target mode with
  | .ok (t2, prints) =>
      .ok (TransferState.mk t2 st.name_lists
        (st.writes ++ (if prints.isEmpty then [path] else [])))
  | .error e => .error e

/-- Record a path in `name_lists`. -/
def record_path (path : List PyVal) (st : TransferState) : TransferState :=
  TransferState.mk st.target (st.name_lists ++ [path]) st.writes

/-- One iteration of the multi-path loop (lines 232-255): `sim_name_list`
with a list as last component is a fan-out write at the path without
that component; otherwise a plain write of `gui_values[i]` (positional
when `multi_variable`) or `gui_values[0]`. -/
def process_multi_element (gui_values : List PyVal) (multi_variable : Bool)
    (i : Nat) (sim_name_list : PyVal) (st : TransferState) :
    Except PyErr TransferState :=
  match sim_name_list with
  | .list l =>
      match l.getLast? with
      | Option.none => .error .indexError
      | some last =>
          match last with
          | .list idx =>
              let pure_name_list := l.dropLast
              let st1 := record_path pure_name_list st
              match fanout_value_list gui_values idx with
              | .ok value_list =>
                  apply_set (.list value_list) pure_name_list .moderate st1
              | .error e => .error e
          | _ =>
              let st1 := record_path l st
              match (if multi_variable then pyIndex gui_values i
                     else pyIndex gui_values 0) with
              | some gui_value => apply_set gui_value l .moderate st1
              | Option.none => .error .indexError
  | _ => .error .typeError

/-- The multi-path loop: `for i, sim_name_list in enumerate(sim_names)`. -/
def process_multi (gui_values : List PyVal) (multi_variable : Bool) :
    Nat → List PyVal → TransferState → Except PyErr TransferState
  | _, [], st => .ok st
  | i, sn :: rest, st =>
      match process_multi_element gui_values multi_variable i sn st with
      | .ok st2 => process_multi gui_values multi_variable (i + 1) rest st2
      | .error e => .error e

/-- Processing of one extracted GUI entry (lines 217-262): read and
normalise its `sim_name` value; if the first name is a list, run the
multi-path loop over the normalised values, else record the single path
and, when a value is present, write it in strict mode. -/
def process_gui_entry (target_name_key value_key : String)
    (st : TransferState) (gui_entry : PyVal) : Except PyErr TransferState :=
  match gui_entry with
  | .dict ges =>
      match dictGet? ges target_name_key with
      | Option.none => .error (.keyError target_name_key)
      | some sn =>
          let sim_names := seq_elems (ensure_list sn 1)
          match sim_names with
          | [] => .error .indexError
          | first :: _ =>
              match first with
              | .list _ =>
                  match dictGet? ges value_key with
                  | Option.none => .error (.keyError value_key)
                  | some gv =>
                      let gui_values := seq_elems (ensure_list gv 1)
                      let multi_variable :=
                        sim_names.length == gui_values.length
                      process_multi gui_values multi_variable 0 sim_names st
              | _ =>
                  let st1 := record_path sim_names st
                  match dictGet? ges value_key with
                  | some v => apply_set v sim_names .strict st1
                  | Option.none => .ok st1
  | _ => .error .typeError

/-- The loop over all extracted GUI entries. -/
def process_entries (target_name_key value_key : String) :
    List PyVal → TransferState → Except PyErr TransferState
  | [], st => .ok st
  | e :: rest, st =>
      match process_gui_entry target_name_key value_key st e with
      | .ok st2 => process_entries target_name_key value_key rest st2
      | .error e2 => .error e2

/-- `dict_transfer` with the ghost write trace: deep-copy the target,
extract every GUI entry tagged with `target_name_key`, and process them
in order starting from the fresh copy and empty records. -/
def dict_transfer_core (source_dict target_dict : PyVal)
    (target_name_key value_key : String) : Except PyErr TransferState :=
  let target_dict_copy := copy_deepcopy target_dict
  let extracted := gen_dict_extract target_name_key source_dict
  process_entries target_name_key value_key extracted
    (TransferState.mk target_dict_copy [] [])

/-- `dict_transfer(source_dict, target_dict, target_name_key, value_key)`:
the pair `(updated copy, name_lists)` the Python function returns. -/
def dict_transfer (source_dict target_dict : PyVal)
    (target_name_key value_key : String) :
    Except PyErr (PyVal × List (List PyVal)) :=
  match dict_transfer_core source_dict target_dict target_name_key value_key with
  | .ok st => .ok (st.target, st.name_lists)
  | .error e => .error e

/-- Explicit state passing of the caller's mutable `target_dict`
argument: the source reads it exactly once, to deep-copy it (line 211),
and every assignment goes through the copy, so the final value of the
caller's binding is its initial value.  The second component is that
final value. -/
def dict_transfer_frame (source_dict target_dict : PyVal)
    (target_name_key value_key : String) :
    Except PyErr (PyVal × List (List PyVal)) × PyVal :=
  (dict_transfer source_dict target_dict target_name_key value_key,
   target_dict)

/-- `key` occurs as a key of this value (which must be a mapping). -/
def has_key (key : String) (v : PyVal) : Bool :=
  match v with
  | .dict es => keyMem key es
  | _ => false

/-- Number of entries named `key` (a well-formed Python dictionary has
at most one). -/
def countKeys (key : String) : List (String × PyVal) → Nat
  | [] => 0
  | (k, _) :: rest => (if k = key then 1 else 0) + countKeys key rest

/-- No key is repeated in this association list (true of every Python
dictionary). -/
def nodupKeys : List (String × PyVal) → Bool
  | [] => true
  | (k, _) :: rest => !keyMem k rest && nodupKeys rest

mutual

/-- Every dictionary at any depth has no repeated keys: the image of a
Python structure under the model always satisfies this. -/
def wf_dicts : PyVal → Bool
  | .dict es => nodupKeys es && wf_entries es
  | .list xs => wf_seq xs
  | .tuple xs => wf_seq xs
  | .wrapped v => wf_dicts v
  | _ => true

def wf_entries : List (String × PyVal) → Bool
  | [] => true
  | (_, v) :: rest => wf_dicts v && wf_entries rest

def wf_seq : List PyVal → Bool
  | [] => true
  | x :: rest => wf_dicts x && wf_seq rest

end

mutual

/-- The mappings reachable by `gen_dict_extract`'s traversal, in
pre-order and regardless of key: the root mapping lists itself and then
the mappings reachable through its entries; an entry's value is entered
when it is a mapping or a list; a list or tuple at the top level (or
inside a list) is traversed elementwise. -/
def reachable_mappings : PyVal → List PyVal
  | .dict es => PyVal.dict es :: reachable_entries es
  | .list xs => reachable_top_seq xs
  | .tuple xs => reachable_top_seq xs
  | _ => []

def reachable_entries : List (String × PyVal) → List PyVal
  | [] => []
  | (_, v) :: rest => reachable_value v ++ reachable_entries rest

def reachable_value : PyVal → List PyVal
  | .dict es => PyVal.dict es :: reachable_entries es
  | .list xs => reachable_top_seq xs
  | _ => []

def reachable_top_seq : List PyVal → List PyVal
  | [] => []
  | d :: rest => reachable_mappings d ++ reachable_top_seq rest

end

mutual

/-- Every mapping at any depth of a nested structure, descending into
all mapping values and all sequence elements alike — the specification's
reading of "every mapping in `t` (at any depth)". -/
def all_mappings : PyVal → List PyVal
  | .dict es => PyVal.dict es :: all_mappings_entries es
  | .list xs => all_mappings_seq xs
  | .tuple xs => all_mappings_seq xs
  | _ => []

def all_mappings_entries : List (String × PyVal) → List PyVal
  | [] => []
  | (_, v) :: rest => all_mappings v ++ all_mappings_entries rest

def all_mappings_seq : List PyVal → List PyVal
  | [] => []
  | x :: rest => all_mappings x ++ all_mappings_seq rest

end

mutual

theorem copy_deepcopy_eq : (t : PyVal) → copy_deepcopy t = t
  | .none => rfl
  | .bool _ => rfl
  | .int _ => rfl
  | .str _ => rfl
  | .dict es => by rw [copy_deepcopy, deepcopy_entries_eq es]
  | .list xs => by rw [copy_deepcopy, deepcopy_seq_eq xs]
  | .tuple xs => by rw [copy_deepcopy, deepcopy_seq_eq xs]
  | .wrapped v => by rw [copy_deepcopy, copy_deepcopy_eq v]

theorem deepcopy_entries_eq : (es : List (String × PyVal)) →
    deepcopy_entries es = es
  | [] => rfl
  | (k, v) :: rest => by
      rw [deepcopy_entries, copy_deepcopy_eq v, deepcopy_entries_eq rest]

theorem deepcopy_seq_eq : (xs : List PyVal) → deepcopy_seq xs = xs
  | [] => rfl
  | x :: rest => by
      rw [deepcopy_seq, copy_deepcopy_eq x, deepcopy_seq_eq rest]

end

/-- C1: `dict_transfer` never mutates the target mapping passed in.  All
writes go to the deep copy made at the start of the call: the result is
a function of `copy_deepcopy target_dict`, itself structurally identical
to `target_dict`, and under explicit state passing of the caller's
mutable binding (`dict_transfer_frame`) the binding's value after the
call equals its value before. -/
theorem dict_transfer_never_mutates_target
    (source_dict target_dict : PyVal) (target_name_key value_key : String) :
    (dict_transfer_frame source_dict target_dict
        target_name_key value_key).2 = target_dict ∧
    copy_deepcopy target_dict = target_dict ∧
    dict_transfer source_dict target_dict target_name_key value_key =
      dict_transfer source_dict (copy_deepcopy target_dict)
        target_name_key value_key := by
  refine ⟨rfl, copy_deepcopy_eq target_dict, ?_⟩
  rw [copy_deepcopy_eq]

/-- C5: Scenario A.  For `source = {'w1': {'sim_name': ['a','b'],
'value': 5}}` and `target = {'a': {'b': 0}}`, `dict_transfer` writes the
value in strict mode at the declared path and records that path:
the result is `({'a': {'b': 5}}, [['a','b']])`. -/
theorem dict_transfer_scenario_a :
    dict_transfer
      (.dict [("w1", .dict [("sim_name", .list [.str "a", .str "b"]),
                            ("value", .int 5)])])
      (.dict [("a", .dict [("b", .int 0)])])
      "sim_name" "value"
    = .ok (.dict [("a", .dict [("b", .int 5)])], [[.str "a", .str "b"]]) :=
  rfl
/-- C9: `ensure_list` on a scalar returns a list of `n` copies of it,
and on an existing sequence returns it unchanged. -/
theorem ensure_list_spec (v : PyVal) (n : Nat) (s : PyVal)
    (hv : is_iterable v = false) (hs : is_iterable s = true) (_hn : 0 < n) :
    (ensure_list v n = .list (List.replicate n v) ∧
     (List.replicate n v).length = n ∧
     ∀ x ∈ List.replicate n v, x = v) ∧
    ensure_list s 1 = s := by
  refine ⟨⟨?_, List.length_replicate n v, ?_⟩, ?_⟩
  · rw [ensure_list, hv]; rfl
  · intro x hx; exact List.eq_of_mem_replicate hx
  · rw [ensure_list, hs]; rfl

theorem ensure_list_spec_witness :
    (ensure_list (.int 5) 3 = .list (List.replicate 3 (.int 5)) ∧
     (List.replicate 3 (PyVal.int 5)).length = 3 ∧
     ∀ x ∈ List.replicate 3 (PyVal.int 5), x = .int 5) ∧
    ensure_list (.tuple [.int 1]) 1 = .tuple [.int 1] :=
  ensure_list_spec (.int 5) 3 (.tuple [.int 1]) rfl rfl (by decide)

theorem keyMem_remove_entries (key : String) :
    ∀ es, keyMem key (remove_key_entries key es) = false := by
  intro es
  induction es with
  | nil => rfl
  | cons kv rest ih =>
      obtain ⟨k, v⟩ := kv
      rw [remove_key_entries]
      by_cases h : k = key
      · simp only [h, if_pos rfl]; exact ih
      · simp [keyMem, h, ih]

mutual

theorem cka_remove (key : String) :
    (t : PyVal) → contains_key_anywhere key (remove_key key t) = false
  | .none => rfl
  | .bool _ => rfl
  | .int _ => rfl
  | .str _ => rfl
  | .wrapped _ => rfl
  | .dict es => by
      rw [remove_key, contains_key_anywhere, keyMem_remove_entries,
        cka_entries_remove key es]
      rfl
  | .list xs => by
      rw [remove_key, contains_key_anywhere, cka_seq_remove key xs]
  | .tuple xs => by
      rw [remove_key, contains_key_anywhere, cka_seq_remove key xs]

theorem cka_entries_remove (key : String) :
    (es : List (String × PyVal)) →
      cka_entries key (remove_key_entries key es) = false
  | [] => rfl
  | (k, v) :: rest => by
      rw [remove_key_entries]
      by_cases h : k = key
      · simp only [h, if_pos rfl]; exact cka_entries_remove key rest
      · simp only [h, if_neg h, cka_entries, cka_remove key v,
          cka_entries_remove key rest, Bool.or_false]

theorem cka_seq_remove (key : String) :
    (xs : List PyVal) → cka_seq key (remove_key_seq key xs) = false
  | [] => rfl
  | x :: rest => by
      rw [remove_key_seq, cka_seq, cka_remove key x, cka_seq_remove key rest]
      rfl

end

theorem remove_key_seq_eq_map (key : String) :
    ∀ xs, remove_key_seq key xs = xs.map (remove_key key) := by
  intro xs
  induction xs with
  | nil => rfl
  | cons x rest ih => rw [remove_key_seq, List.map_cons, ih]

/-- C7: after `remove_key(k, t)` no mapping anywhere inside `t` contains
`k`, and a sequence container is not itself mutated: it keeps its
constructor and its elements slotwise (each transformed in place). -/
theorem remove_key_spec (key : String) (t : PyVal) :
    contains_key_anywhere key (remove_key key t) = false ∧
    ∀ xs : List PyVal,
      remove_key key (.list xs) = .list (xs.map (remove_key key)) ∧
      remove_key key (.tuple xs) = .tuple (xs.map (remove_key key)) := by
  refine ⟨cka_remove key t, fun xs => ⟨?_, ?_⟩⟩
  · rw [remove_key, remove_key_seq_eq_map]
  · rw [remove_key, remove_key_seq_eq_map]
theorem dictSet_self (k : String) :
    ∀ (es : List (String × PyVal)) (v : PyVal),
      dictGet? es k = some v → dictSet es k v = es := by
  intro es
  induction es with
  | nil => intro v h; cases h
  | cons kv rest ih =>
      obtain ⟨k', v'⟩ := kv
      intro v h
      rw [dictGet?] at h
      rw [dictSet]
      by_cases hk : k' = k
      · rw [if_pos hk] at h
        cases h
        rw [if_pos hk]
      · rw [if_neg hk] at h
        rw [if_neg hk, ih v h]

theorem set_go_missing (value : PyVal) (full : List PyVal) :
    ∀ (path : List PyVal) (tree : PyVal)
      (es : List (String × PyVal)) (s : String),
      resolves_to path tree = some (es, s) → keyMem s es = false →
      set_go full value .strict path tree = .error (.nameError full) ∧
      set_go full value .moderate path tree = .ok (tree, [full]) := by
  intro path
  induction path with
  | nil =>
      intro tree es s hres
      cases hres
  | cons k rest ih =>
      intro tree es s hres hmem
      cases rest with
      | nil =>
          cases tree <;> cases k <;> simp [resolves_to] at hres
          obtain ⟨hes, hs⟩ := hres
          subst hes
          subst hs
          constructor <;> simp [set_go, hmem]
      | cons k2 rest2 =>
          cases tree <;> cases k <;> simp [resolves_to] at hres
          rename_i es0 s0
          cases hget : dictGet? es0 s0 with
          | none => rw [hget] at hres; cases hres
          | some child =>
              rw [hget] at hres
              simp only [] at hres
              obtain ⟨h1, h2⟩ := ih child es s hres hmem
              constructor <;>
                simp [set_go, hget, h1, h2, dictSet_self s0 es0 child hget]

theorem keyMem_eq_isSome (k : String) :
    ∀ es, keyMem k es = (dictGet? es k).isSome := by
  intro es
  induction es with
  | nil => rfl
  | cons kv rest ih =>
      obtain ⟨k', v'⟩ := kv
      rw [keyMem, dictGet?]
      by_cases hk : k' = k
      · simp [hk]
      · simp [hk, ih]

theorem dictGet_dictSet (k : String) :
    ∀ (es : List (String × PyVal)) (old v : PyVal),
      dictGet? es k = some old → dictGet? (dictSet es k v) k = some v := by
  intro es
  induction es with
  | nil => intro old v h; cases h
  | cons kv rest ih =>
      obtain ⟨k', v'⟩ := kv
      intro old v h
      rw [dictGet?] at h
      rw [dictSet]
      by_cases hk : k' = k
      · rw [if_pos hk, dictGet?, if_pos hk]
      · rw [if_neg hk] at h
        rw [if_neg hk, dictGet?, if_neg hk]
        exact ih old v h

theorem resolves_to_root_dict :
    ∀ (path : List PyVal) (tree : PyVal)
      (x : List (String × PyVal) × String),
      resolves_to path tree = some x → ∃ es0, tree = .dict es0 := by
  intro path tree x h
  cases path with
  | nil => cases h
  | cons k rest =>
      cases rest <;> cases tree <;> cases k <;>
        simp [resolves_to] at h <;> exact ⟨_, rfl⟩

/-- C3: when a path's prefix resolves but its final key is absent from
the resolved sub-mapping, `set_dict_entry` in strict mode raises a
`NameError` naming the path, and in moderate mode does not raise, prints
a diagnostic naming the path, and returns the tree unmodified — no key
is created. -/
theorem set_dict_entry_missing_final_key (tree : PyVal) (path : List PyVal)
    (es : List (String × PyVal)) (s : String) (value : PyVal)
    (hres : resolves_to path tree = some (es, s))
    (hmiss : keyMem s es = false) :
    set_dict_entry value path tree .strict = .error (.nameError path) ∧
    set_dict_entry value path tree .moderate = .ok (tree, [path]) := by
  obtain ⟨es0, rfl⟩ := resolves_to_root_dict path tree (es, s) hres
  obtain ⟨h1, h2⟩ := set_go_missing value path path (.dict es0) es s hres hmiss
  constructor <;> simp [set_dict_entry, h1, h2]

theorem set_dict_entry_missing_final_key_witness :
    set_dict_entry (.int 7) [.str "a", .str "b"]
        (.dict [("a", .dict [])]) .strict
      = .error (.nameError [.str "a", .str "b"]) ∧
    set_dict_entry (.int 7) [.str "a", .str "b"]
        (.dict [("a", .dict [])]) .moderate
      = .ok (.dict [("a", .dict [])], [[.str "a", .str "b"]]) :=
  set_dict_entry_missing_final_key (.dict [("a", .dict [])])
    [.str "a", .str "b"] [] "b" (.int 7) rfl rfl

theorem set_go_found (value : PyVal) (full : List PyVal) (mode : SetMode) :
    ∀ (path : List PyVal) (tree : PyVal)
      (es : List (String × PyVal)) (s : String) (old : PyVal),
      resolves_to path tree = some (es, s) → dictGet? es s = some old →
      ∃ es2, set_go full value mode path tree = .ok (.dict es2, []) ∧
        get_go path (.dict es2) = .ok (unwrap_value value) := by
  intro path
  induction path with
  | nil => intro tree es s old hres; cases hres
  | cons k rest ih =>
      intro tree es s old hres hold
      cases rest with
      | nil =>
          cases tree <;> cases k <;> simp [resolves_to] at hres
          rename_i es1 s1
          obtain ⟨hes, hs⟩ := hres
          subst hes
          subst hs
          have hmem : keyMem s1 es1 = true := by
            rw [keyMem_eq_isSome, hold]
            rfl
          refine ⟨dictSet es1 s1 (unwrap_value value), ?_, ?_⟩
          · simp [set_go, hmem]
          · simp [get_go, dictGet_dictSet s1 es1 old (unwrap_value value) hold]
      | cons k2 rest2 =>
          cases tree <;> cases k <;> simp [resolves_to] at hres
          rename_i es0 s0
          cases hget : dictGet? es0 s0 with
          | none => rw [hget] at hres; cases hres
          | some child =>
              rw [hget] at hres
              simp only [] at hres
              obtain ⟨es2, h1, h2⟩ := ih child es s old hres hold
              refine ⟨dictSet es0 s0 (.dict es2), ?_, ?_⟩
              · simp [set_go, hget, h1]
              · simp [get_go, dictGet_dictSet s0 es0 child (.dict es2) hget, h2]

/-- C8: when the path's final key pre-exists in the resolved parent
sub-mapping, `set_dict_entry` followed by `get_dict_entry` with the same
path returns the just-set (unwrapped) value. -/
theorem set_then_get_round_trip (tree : PyVal) (path : List PyVal)
    (es : List (String × PyVal)) (s : String) (old value : PyVal)
    (mode : SetMode)
    (hres : resolves_to path tree = some (es, s))
    (hold : dictGet? es s = some old) :
    ∃ t2, set_dict_entry value path tree mode = .ok (t2, []) ∧
      get_dict_entry path t2 = .ok (unwrap_value value) := by
  obtain ⟨es0, rfl⟩ := resolves_to_root_dict path tree (es, s) hres
  obtain ⟨es2, h1, h2⟩ :=
    set_go_found value path mode path (.dict es0) es s old hres hold
  exact ⟨.dict es2, by simpa [set_dict_entry] using h1,
    by simpa [get_dict_entry] using h2⟩

theorem set_then_get_round_trip_witness :
    ∃ t2, set_dict_entry (.wrapped (.int 9)) [.str "a", .str "b"]
        (.dict [("a", .dict [("b", .int 0)])]) .moderate = .ok (t2, []) ∧
      get_dict_entry [.str "a", .str "b"] t2 = .ok (.int 9) :=
  set_then_get_round_trip (.dict [("a", .dict [("b", .int 0)])])
    [.str "a", .str "b"] [("b", .int 0)] "b" (.int 0)
    (.wrapped (.int 9)) .moderate rfl rfl
theorem pyIndex_neg_one (xs : List PyVal) (h : xs ≠ []) :
    pyIndex xs (-1) = some (xs.getLast h) := by
  have hlen : 0 < xs.length := List.length_pos.mpr h
  have h0 : (0 : Int) ≤ -1 + xs.length := by omega
  have ht : ((-1 : Int) + xs.length).toNat = xs.length - 1 := by omega
  have hb : xs.length - 1 < xs.length := by omega
  simp only [pyIndex, if_pos (by omega : (-1 : Int) < 0), if_pos h0, ht]
  rw [List.getElem?_eq_getElem hb]
  rw [List.getLast_eq_getElem]

/-- C6: resolving a fan-out value list takes, for each index `j` of the
marker in order, the normalised (unwrapped) value `values[j]`, falling
back to the last available value `values[-1]` when `j` is out of range
instead of failing; in particular Scenario C, `source = {'w1':
{'sim_name': [['x', [0, 2]]], 'value': [10, 20, 30]}}` with `target =
{'x': []}`, yields `({'x': [10, 30]}, [['x']])`. -/
theorem fanout_values_with_fallback (gui_values : List PyVal)
    (js : List Int) (h : gui_values ≠ []) :
    fanout_value_list gui_values (js.map PyVal.int) =
      .ok (js.map fun j =>
        unwrap_value ((pyIndex gui_values j).getD (gui_values.getLast h))) ∧
    dict_transfer
      (.dict [("w1", .dict
        [("sim_name", .list [.list [.str "x", .list [.int 0, .int 2]]]),
         ("value", .list [.int 10, .int 20, .int 30])])])
      (.dict [("x", .list [])])
      "sim_name" "value"
    = .ok (.dict [("x", .list [.int 10, .int 30])], [[.str "x"]]) := by
  refine ⟨?_, rfl⟩
  induction js with
  | nil => rfl
  | cons j rest ih =>
      rw [List.map_cons, fanout_value_list]
      cases hp : pyIndex gui_values j with
      | some v => rw [ih, List.map_cons, hp]; rfl
      | none => rw [pyIndex_neg_one gui_values h, ih, List.map_cons, hp]; rfl

theorem fanout_values_with_fallback_witness :
    fanout_value_list [.int 10, .int 20, .int 30]
        ([0, 5, -1].map PyVal.int) =
      .ok ([0, 5, -1].map fun j =>
        unwrap_value ((pyIndex [.int 10, .int 20, .int 30] j).getD
          (([.int 10, .int 20, .int 30] : List PyVal).getLast
            (by simp)))) :=
  (fanout_values_with_fallback [.int 10, .int 20, .int 30] [0, 5, -1]
    (by simp)).1
theorem apply_set_inv (v : PyVal) (p : List PyVal) (m : SetMode)
    (st st' : TransferState) (h : apply_set v p m st = .ok st') :
    st'.name_lists = st.name_lists ∧
    (st.writes ⊆ st.name_lists → p ∈ st.name_lists →
      st'.writes ⊆ st'.name_lists) := by
  rw [apply_set] at h
  cases hset : set_dict_entry v p st.target m with
  | error e => rw [hset] at h; cases h
  | ok pr =>
      obtain ⟨t2, prints⟩ := pr
      rw [hset] at h
      simp only [] at h
      cases h
      refine ⟨rfl, fun hsub hp x hx => ?_⟩
      rcases List.mem_append.mp hx with hx1 | hx2
      · exact hsub hx1
      · cases hpe : prints.isEmpty
        · rw [hpe] at hx2; cases hx2
        · rw [hpe] at hx2
          rcases List.mem_singleton.mp hx2 with rfl
          exact hp

theorem record_path_fields (p : List PyVal) (st : TransferState) :
    (record_path p st).name_lists = st.name_lists ++ [p] ∧
    (record_path p st).writes = st.writes ∧
    (record_path p st).target = st.target :=
  ⟨rfl, rfl, rfl⟩

theorem process_multi_element_inv (gv : List PyVal) (mv : Bool) (i : Nat)
    (sn : PyVal) (st st' : TransferState)
    (h : process_multi_element gv mv i sn st = .ok st')
    (hinv : st.writes ⊆ st.name_lists) :
    st'.writes ⊆ st'.name_lists := by
  cases sn <;> rw [process_multi_element] at h <;> try (cases h)
  rename_i l
  cases hlast : l.getLast? with
  | none => rw [hlast] at h; cases h
  | some last =>
      rw [hlast] at h
      simp only [] at h
      have hrec : ∀ q, st.writes ⊆ st.name_lists ++ [q] := fun q x hx =>
        List.mem_append.mpr (Or.inl (hinv hx))
      have hq : ∀ q : List PyVal, q ∈ st.name_lists ++ [q] := fun q =>
        List.mem_append.mpr (Or.inr (List.mem_singleton.mpr rfl))
      cases last <;> simp only [] at h
      case list idx =>
          cases hf : fanout_value_list gv idx with
          | error e => rw [hf] at h; cases h
          | ok vl =>
              rw [hf] at h
              simp only [] at h
              obtain ⟨hnl, himp⟩ := apply_set_inv _ _ _ _ _ h
              exact himp (hrec _) (hq _)
      all_goals
        cases hidx : (if mv then pyIndex gv i else pyIndex gv 0) with
        | none => rw [hidx] at h; cases h
        | some gvi =>
            rw [hidx] at h
            simp only [] at h
            obtain ⟨hnl, himp⟩ := apply_set_inv _ _ _ _ _ h
            exact himp (hrec _) (hq _)

theorem process_multi_inv (gv : List PyVal) (mv : Bool) :
    ∀ (rest : List PyVal) (i : Nat) (st st' : TransferState),
      process_multi gv mv i rest st = .ok st' →
      st.writes ⊆ st.name_lists → st'.writes ⊆ st'.name_lists := by
  intro rest
  induction rest with
  | nil =>
      intro i st st' h hinv
      rw [process_multi] at h
      cases h
      exact hinv
  | cons sn rest2 ih =>
      intro i st st' h hinv
      rw [process_multi] at h
      cases hstep : process_multi_element gv mv i sn st with
      | error e => rw [hstep] at h; cases h
      | ok st2 =>
          rw [hstep] at h
          simp only [] at h
          exact ih (i + 1) st2 st' h
            (process_multi_element_inv gv mv i sn st st2 hstep hinv)

theorem process_gui_entry_inv (tk vk : String) (ge : PyVal)
    (st st' : TransferState) (h : process_gui_entry tk vk st ge = .ok st')
    (hinv : st.writes ⊆ st.name_lists) :
    st'.writes ⊆ st'.name_lists := by
  cases ge <;> rw [process_gui_entry] at h <;> try (cases h)
  rename_i ges
  cases hsn : dictGet? ges tk with
  | none => rw [hsn] at h; cases h
  | some sn =>
      rw [hsn] at h
      simp only [] at h
      cases hs : seq_elems (ensure_list sn 1) with
      | nil => rw [hs] at h; cases h
      | cons first more =>
          rw [hs] at h
          simp only [] at h
          have hrec : st.writes ⊆ st.name_lists ++ [first :: more] :=
            fun x hx => List.mem_append.mpr (Or.inl (hinv hx))
          have hq : (first :: more) ∈ st.name_lists ++ [first :: more] :=
            List.mem_append.mpr (Or.inr (List.mem_singleton.mpr rfl))
          cases first <;> simp only [] at h
          case list l =>
              cases hgv : dictGet? ges vk with
              | none => rw [hgv] at h; cases h
              | some gv =>
                  rw [hgv] at h
                  simp only [] at h
                  exact process_multi_inv _ _ _ _ _ _ h hinv
          all_goals
            cases hgv : dictGet? ges vk with
            | some v =>
                rw [hgv] at h
                simp only [] at h
                obtain ⟨hnl, himp⟩ := apply_set_inv _ _ _ _ _ h
                exact himp hrec hq
            | none =>
                rw [hgv] at h
                cases h
                exact hrec

theorem process_entries_inv (tk vk : String) :
    ∀ (entries : List PyVal) (st st' : TransferState),
      process_entries tk vk entries st = .ok st' →
      st.writes ⊆ st.name_lists → st'.writes ⊆ st'.name_lists := by
  intro entries
  induction entries with
  | nil =>
      intro st st' h hinv
      rw [process_entries] at h
      cases h
      exact hinv
  | cons e rest ih =>
      intro st st' h hinv
      rw [process_entries] at h
      cases hstep : process_gui_entry tk vk st e with
      | error e2 => rw [hstep] at h; cases h
      | ok st2 =>
          rw [hstep] at h
          simp only [] at h
          exact ih st2 st' h (process_gui_entry_inv tk vk e st st2 hstep hinv)

/-- C2 counterexample: for `source = {'w1': {'sim_name': ['a','b']}}`
(no value key) and `target = {'a': {'b': 0}}`, the call succeeds with
the non-empty record `[['a','b']]` although no write occurred: the
updated copy equals the original target and the ghost write trace is
empty.  So a path in the record need not have been written. -/
theorem updated_paths_record_overapproximates :
    dict_transfer_core
      (.dict [("w1", .dict [("sim_name", .list [.str "a", .str "b"])])])
      (.dict [("a", .dict [("b", .int 0)])])
      "sim_name" "value"
    = .ok (TransferState.mk (.dict [("a", .dict [("b", .int 0)])])
        [[.str "a", .str "b"]] []) ∧
    ([[.str "a", .str "b"]] : List (List PyVal)) ≠ [] :=
  ⟨rfl, by simp⟩

/-- C2 (amended): every path actually written during a `dict_transfer`
call appears in the returned updated-paths record — equivalently, a path
absent from the record was not written.  (The record may additionally
contain paths that were not written: it gains one entry per path
processed, including skipped ones.) -/
theorem dict_transfer_writes_recorded (source_dict target_dict : PyVal)
    (target_name_key value_key : String) (st : TransferState)
    (h : dict_transfer_core source_dict target_dict
      target_name_key value_key = .ok st) :
    st.writes ⊆ st.name_lists := by
  rw [dict_transfer_core] at h
  exact process_entries_inv _ _ _ _ _ h (fun x hx => absurd hx
    (List.not_mem_nil x))

theorem dict_transfer_writes_recorded_witness :
    (TransferState.mk (.dict [("a", .dict [("b", .int 5)])])
      [[.str "a", .str "b"]] [[.str "a", .str "b"]]).writes ⊆
    (TransferState.mk (.dict [("a", .dict [("b", .int 5)])])
      [[.str "a", .str "b"]] [[.str "a", .str "b"]]).name_lists :=
  dict_transfer_writes_recorded
    (.dict [("w1", .dict [("sim_name", .list [.str "a", .str "b"]),
                          ("value", .int 5)])])
    (.dict [("a", .dict [("b", .int 0)])])
    "sim_name" "value" _ rfl
/-- C10: `dict_transfer` treats a missing value key asymmetrically.  In
the multi-path case (the first declared name is itself a list) a source
element without the value key makes the whole call fail with a
`KeyError`; in the single-path case such an element is processed without
error: its path is still recorded and no write occurs (the copy is the
unchanged target and the ghost write trace is empty). -/
theorem missing_value_key_asymmetry (tgt : PyVal) (tk vk : String) :
    (∀ (src : PyVal) (ges : List (String × PyVal)) (sn : PyVal)
       (l more : List PyVal),
       gen_dict_extract tk src = [.dict ges] →
       dictGet? ges tk = some sn →
       seq_elems (ensure_list sn 1) = .list l :: more →
       dictGet? ges vk = Option.none →
       dict_transfer src tgt tk vk = .error (.keyError vk)) ∧
    (∀ (src : PyVal) (ges : List (String × PyVal)) (sn first : PyVal)
       (more : List PyVal),
       gen_dict_extract tk src = [.dict ges] →
       dictGet? ges tk = some sn →
       seq_elems (ensure_list sn 1) = first :: more →
       (∀ xs, first ≠ PyVal.list xs) →
       dictGet? ges vk = Option.none →
       dict_transfer_core src tgt tk vk =
         .ok (TransferState.mk tgt [first :: more] [])) := by
  constructor
  · intro src ges sn l more hext hsn hsq hvk
    rw [dict_transfer, dict_transfer_core, hext, process_entries,
      process_gui_entry, hsn]
    simp only []
    rw [hsq]
    simp only []
    rw [hvk]
  · intro src ges sn first more hext hsn hsq hne hvk
    rw [dict_transfer_core, hext, process_entries, process_gui_entry, hsn]
    simp only []
    rw [hsq]
    simp only []
    cases first with
    | list xs => exact absurd rfl (hne xs)
    | _ =>
        rw [hvk]
        simp only [process_entries, record_path, copy_deepcopy_eq,
          List.nil_append]

theorem missing_value_key_asymmetry_witness :
    dict_transfer
      (.dict [("w1", .dict [("sim_name", .list [.list [.str "x"]])])])
      (.dict [("x", .int 0)]) "sim_name" "value"
      = .error (.keyError "value") ∧
    dict_transfer_core
      (.dict [("w1", .dict [("sim_name", .list [.str "a", .str "b"])])])
      (.dict [("a", .dict [("b", .int 0)])]) "sim_name" "value"
      = .ok (TransferState.mk (.dict [("a", .dict [("b", .int 0)])])
          [[.str "a", .str "b"]] []) :=
  ⟨(missing_value_key_asymmetry (.dict [("x", .int 0)])
      "sim_name" "value").1
      (.dict [("w1", .dict [("sim_name", .list [.list [.str "x"]])])])
      [("sim_name", .list [.list [.str "x"]])] (.list [.list [.str "x"]])
      [.str "x"] [] rfl rfl rfl rfl,
   (missing_value_key_asymmetry (.dict [("a", .dict [("b", .int 0)])])
      "sim_name" "value").2
      (.dict [("w1", .dict [("sim_name", .list [.str "a", .str "b"])])])
      [("sim_name", .list [.str "a", .str "b"])]
      (.list [.str "a", .str "b"])
      (.str "a") [.str "b"] rfl rfl rfl (fun xs h => by cases h) rfl⟩
theorem countKeys_zero (key : String) :
    ∀ es, keyMem key es = false → countKeys key es = 0 := by
  intro es
  induction es with
  | nil => intro _; rfl
  | cons kv rest ih =>
      obtain ⟨k, v⟩ := kv
      intro h
      rw [keyMem] at h
      obtain ⟨h1, h2⟩ := Bool.or_eq_false_iff.mp h
      rw [countKeys, ih h2, if_neg (by simpa using h1)]

theorem countKeys_nodup (key : String) :
    ∀ es, nodupKeys es = true →
      countKeys key es = if keyMem key es then 1 else 0 := by
  intro es
  induction es with
  | nil => intro _; rfl
  | cons kv rest ih =>
      obtain ⟨k, v⟩ := kv
      intro h
      rw [nodupKeys, Bool.and_eq_true] at h
      obtain ⟨h1, h2⟩ := h
      have h1' : keyMem k rest = false := by simpa using h1
      rw [countKeys, keyMem, ih h2]
      by_cases hk : k = key
      · subst hk
        rw [if_pos rfl, if_neg (by simp [h1']), if_pos (by simp)]
      · simp only [if_neg hk, Nat.zero_add]
        by_cases hm : keyMem key rest
        · rw [if_pos hm, if_pos (by simp [hm])]
        · rw [if_neg hm, if_neg (by simp [hk, hm])]

mutual

theorem gen_extract_perm (key : String) :
    (t : PyVal) → wf_dicts t = true →
      (gen_dict_extract key t).Perm
        ((reachable_mappings t).filter (has_key key))
  | .none, _ => by simp [gen_dict_extract, reachable_mappings]
  | .bool _, _ => by simp [gen_dict_extract, reachable_mappings]
  | .int _, _ => by simp [gen_dict_extract, reachable_mappings]
  | .str _, _ => by simp [gen_dict_extract, reachable_mappings]
  | .wrapped _, _ => by simp [gen_dict_extract, reachable_mappings]
  | .list xs, h => by
      rw [gen_dict_extract, reachable_mappings]
      exact extract_top_seq_perm key xs (by rw [wf_dicts] at h; exact h)
  | .tuple xs, h => by
      rw [gen_dict_extract, reachable_mappings]
      exact extract_top_seq_perm key xs (by rw [wf_dicts] at h; exact h)
  | .dict es, h => by
      rw [wf_dicts, Bool.and_eq_true] at h
      obtain ⟨h1, h2⟩ := h
      rw [gen_dict_extract, reachable_mappings, List.filter_cons]
      have hE := extract_entries_perm key es es h2
      rw [countKeys_nodup key es h1] at hE
      by_cases hk : keyMem key es
      · rw [if_pos hk, List.replicate_one] at hE
        rw [if_pos (show has_key key (PyVal.dict es) = true by
          rw [has_key]; exact hk)]
        exact hE
      · rw [if_neg hk, List.replicate_zero] at hE
        rw [if_neg (show ¬has_key key (PyVal.dict es) = true by
          rw [has_key]; simpa using hk)]
        exact hE

theorem extract_entries_perm (key : String) (whole : List (String × PyVal)) :
    (es : List (String × PyVal)) → wf_entries es = true →
      (extract_entries key whole es).Perm
        (List.replicate (countKeys key es) (PyVal.dict whole) ++
          (reachable_entries es).filter (has_key key))
  | [], _ => by simp [extract_entries, countKeys, reachable_entries]
  | (k, v) :: rest, h => by
      rw [wf_entries, Bool.and_eq_true] at h
      obtain ⟨hv, hr⟩ := h
      have hV := extract_value_perm key v hv
      have hR := extract_entries_perm key whole rest hr
      rw [extract_entries, reachable_entries, countKeys, List.filter_append]
      rw [← Multiset.coe_eq_coe] at hV hR ⊢
      simp only [← Multiset.coe_add] at hV hR ⊢
      rw [hV, hR, List.replicate_add]
      simp only [← Multiset.coe_add]
      by_cases hk : k = key
      · rw [if_pos hk, if_pos hk, List.replicate_one]
        abel
      · rw [if_neg hk, if_neg hk, List.replicate_zero]
        simp only [List.nil_append, Multiset.coe_nil, zero_add]
        abel

theorem extract_value_perm (key : String) :
    (v : PyVal) → wf_dicts v = true →
      (extract_value key v).Perm
        ((reachable_value v).filter (has_key key))
  | .none, _ => by simp [extract_value, reachable_value]
  | .bool _, _ => by simp [extract_value, reachable_value]
  | .int _, _ => by simp [extract_value, reachable_value]
  | .str _, _ => by simp [extract_value, reachable_value]
  | .wrapped _, _ => by simp [extract_value, reachable_value]
  | .tuple _, _ => by simp [extract_value, reachable_value]
  | .list xs, h => by
      rw [extract_value, reachable_value]
      exact extract_top_seq_perm key xs (by rw [wf_dicts] at h; exact h)
  | .dict es, h => by
      rw [wf_dicts, Bool.and_eq_true] at h
      obtain ⟨h1, h2⟩ := h
      rw [extract_value, reachable_value, List.filter_cons]
      have hE := extract_entries_perm key es es h2
      rw [countKeys_nodup key es h1] at hE
      by_cases hk : keyMem key es
      · rw [if_pos hk, List.replicate_one] at hE
        rw [if_pos (show has_key key (PyVal.dict es) = true by
          rw [has_key]; exact hk)]
        exact hE
      · rw [if_neg hk, List.replicate_zero] at hE
        rw [if_neg (show ¬has_key key (PyVal.dict es) = true by
          rw [has_key]; simpa using hk)]
        exact hE

theorem extract_top_seq_perm (key : String) :
    (xs : List PyVal) → wf_seq xs = true →
      (extract_top_seq key xs).Perm
        ((reachable_top_seq xs).filter (has_key key))
  | [], _ => by simp [extract_top_seq, reachable_top_seq]
  | x :: rest, h => by
      rw [wf_seq, Bool.and_eq_true] at h
      obtain ⟨hx, hr⟩ := h
      rw [extract_top_seq, reachable_top_seq, List.filter_append]
      exact (gen_extract_perm key x hx).append (extract_top_seq_perm key rest hr)

end

/-- C4 counterexample: for `t = {'a': ({'c': 1},)}` — a mapping with a
tuple (a sequence) as value, the tuple holding a mapping that contains
`'c'` — `gen_dict_extract('c', t)` yields nothing although a mapping at
depth contains the key: mapping values that are tuples are not recursed
into (only mapping values that are dictionaries or lists are). -/
theorem gen_dict_extract_misses_tuple_values :
    gen_dict_extract "c"
      (.dict [("a", .tuple [.dict [("c", .int 1)]])]) = [] ∧
    PyVal.dict [("c", .int 1)] ∈
      all_mappings (.dict [("a", .tuple [.dict [("c", .int 1)]])]) ∧
    has_key "c" (.dict [("c", .int 1)]) = true := by
  refine ⟨rfl, ?_, rfl⟩
  simp [all_mappings, all_mappings_entries, all_mappings_seq]

/-- C4 (amended): on structures whose dictionaries have no repeated
keys, `gen_dict_extract` yields exactly the mappings that contain the
key and are reachable by its traversal — which recurses into mapping
values that are mappings, into each element of mapping values that are
lists (tuple values are not entered), and into elements of top-level
lists and tuples — once per occurrence along the traversal (an outer
match is yielded and its values are still recursed into), and every
yielded mapping contains the key. -/
theorem gen_dict_extract_characterisation (key : String) (t : PyVal)
    (h : wf_dicts t = true) :
    (gen_dict_extract key t).Perm
      ((reachable_mappings t).filter (has_key key)) ∧
    ∀ m ∈ gen_dict_extract key t, has_key key m = true := by
  refine ⟨gen_extract_perm key t h, fun m hm => ?_⟩
  have hmem := (gen_extract_perm key t h).mem_iff.mp hm
  exact (List.mem_filter.mp hmem).2

theorem gen_dict_extract_characterisation_witness :
    (gen_dict_extract "c"
        (.dict [("a", .dict [("c", .int 1),
                             ("b", .dict [("c", .int 2)])])])).Perm
      ((reachable_mappings
          (.dict [("a", .dict [("c", .int 1),
                               ("b", .dict [("c", .int 2)])])])).filter
        (has_key "c")) ∧
    ∀ m ∈ gen_dict_extract "c"
        (.dict [("a", .dict [("c", .int 1),
                             ("b", .dict [("c", .int 2)])])]),
      has_key "c" m = true :=
  gen_dict_extract_characterisation "c"
    (.dict [("a", .dict [("c", .int 1), ("b", .dict [("c", .int 2)])])])
    rfl
